/-
Verification of the quasi-Newton optimizer of pyiron_atomistics
(interactive/quasi_newton.py) against its natural-language specification.

The Python source is shallowly embedded: numpy arrays become functions
`Fin n → ℚ` and matrices `Matrix (Fin n) (Fin n) ℚ` (or lists of rationals
where reshaping matters), fallible code returns `Except String`, and the
external linear-algebra routine `np.linalg.eigh` is passed in as an explicit
function argument.  Machine floats are modelled by exact rationals; the
float-specific tolerances that the source uses (`np.isclose` with
atol = 1e-8) are carried over literally as rational constants.
-/
import Mathlib

deriving instance DecidableEq for Except

namespace QN

/-- The mutable state of `QuasiNewtonInteractive`.  `symmetrize` records
whether `self.symmetry` is set (i.e. a symmetry object was attached at
construction); `_eigenvalues`/`_eigenvectors` are the lazy eigen caches. -/
structure Engine (n : ℕ) where
  use_eigenvalues : Bool
  regularization : ℚ
  hessian : Matrix (Fin n) (Fin n) ℚ
  _eigenvalues : Option (Fin n → ℚ)
  _eigenvectors : Option (Matrix (Fin n) (Fin n) ℚ)
  g_old : Option (Fin n → ℚ)
  dx : Fin n → ℚ
  symmetrize : Bool
deriving DecidableEq

/-- `QuasiNewtonInteractive._initialize_hessian` (scalar `starting_h` seed,
which is the branch exercised by `run_qn`): `starting_h * np.eye(3N)`,
plus the optional diffusion-bias rank-one correction
`-(starting_h+1) * outer(v, v) / norm(v)**2` which also forces
`use_eigenvalues = True`.  Giving only one of `diffusion_id` /
`diffusion_direction` raises a `ValueError`.  The direction is taken as the
already-embedded flat per-coordinate field `v` (in the source, `v` is
the zero field with the direction written into the row `diffusion_id`). -/
def initialize_hessian (n : ℕ) (starting_h : ℚ) (diffusion_id : Option ℕ)
    (diffusion_direction : Option (Fin n → ℚ)) (use_eigenvalues : Bool) :
    Except String (Matrix (Fin n) (Fin n) ℚ × Bool) :=
  let H0 : Matrix (Fin n) (Fin n) ℚ := starting_h • (1 : Matrix (Fin n) (Fin n) ℚ)
  match diffusion_id, diffusion_direction with
  | some _, some v =>
      .ok (H0 - ((starting_h + 1) / (∑ i, v i * v i)) • Matrix.vecMulVec v v, true)
  | none, none => .ok (H0, use_eigenvalues)
  | _, _ => .error "diffusion id or diffusion direction not specified"

/-- `QuasiNewtonInteractive.__init__`: seeds the Hessian, squares the
regularization constant when eigen-mode is on, and rejects eigen-mode with
zero regularization. -/
def mkEngine (n : ℕ) (starting_h : ℚ) (diffusion_id : Option ℕ) (use_eigenvalues : Bool)
    (diffusion_direction : Option (Fin n → ℚ)) (regularization : ℚ) (symmetrize : Bool) :
    Except String (Engine n) := do
  let p ← initialize_hessian n starting_h diffusion_id diffusion_direction use_eigenvalues
  let reg := if p.2 then regularization ^ 2 else regularization
  if p.2 ∧ reg = 0 then
    .error "Regularization must be larger than 0 when eigenvalues are used"
  else
    .ok { use_eigenvalues := p.2, regularization := reg, hessian := p.1,
          _eigenvalues := none, _eigenvectors := none, g_old := none,
          dx := fun _ => 0, symmetrize := symmetrize }

/-- The `hessian` property setter at the square call sites of
`update_hessian`: for an already-square value the `reshape(length, length)`
is the identity, so the setter stores the matrix and clears both eigen
caches.  (The reshape semantics on flat input is modelled separately in
`HProp` below.) -/
def setHessian {n : ℕ} (s : Engine n) (M : Matrix (Fin n) (Fin n) ℚ) : Engine n :=
  { s with hessian := M, _eigenvalues := none, _eigenvectors := none }

/-- The lazy `eigenvalues` property: the cache if present, otherwise the
eigenvalues that `np.linalg.eigh` (the argument `eig`) yields on the current
Hessian. -/
def eigenvaluesOf {n : ℕ} (eig : Matrix (Fin n) (Fin n) ℚ → (Fin n → ℚ) × Matrix (Fin n) (Fin n) ℚ)
    (s : Engine n) : Fin n → ℚ :=
  match s._eigenvalues with
  | some v => v
  | none => (eig s.hessian).1

/-- The lazy `eigenvectors` property. -/
def eigenvectorsOf {n : ℕ} (eig : Matrix (Fin n) (Fin n) ℚ → (Fin n → ℚ) × Matrix (Fin n) (Fin n) ℚ)
    (s : Engine n) : Matrix (Fin n) (Fin n) ℚ :=
  match s._eigenvectors with
  | some v => v
  | none => (eig s.hessian).2

/-- `np.linalg.inv`: fails on a singular matrix, otherwise returns the
inverse `det⁻¹ • adjugate`. -/
def npInv {n : ℕ} (A : Matrix (Fin n) (Fin n) ℚ) : Except String (Matrix (Fin n) (Fin n) ℚ) :=
  if A.det = 0 then .error "Singular matrix" else .ok (A.det⁻¹ • A.adjugate)

/-- The `inv_hessian` property.  With positive regularization it either
inverts through the eigen-spectrum (`einsum('ik,k,jk->ij', V, λ/(λ²+reg), V)`)
or inverts `H + reg*I` directly.  With zero regularization the source line
`np.linnalg.inv(self.hessian)` refers to a nonexistent numpy submodule
(`linnalg` is a typo for `linalg`) and raises `AttributeError`; the embedding
renders that branch as the corresponding error. -/
def invHessian {n : ℕ} (eig : Matrix (Fin n) (Fin n) ℚ → (Fin n → ℚ) × Matrix (Fin n) (Fin n) ℚ)
    (s : Engine n) : Except String (Matrix (Fin n) (Fin n) ℚ) :=
  if 0 < s.regularization then
    if s.use_eigenvalues then
      .ok (Matrix.of fun i j => ∑ k,
        eigenvectorsOf eig s i k
          * (eigenvaluesOf eig s k / ((eigenvaluesOf eig s k) ^ 2 + s.regularization))
          * eigenvectorsOf eig s j k)
    else
      npInv (s.hessian + s.regularization • (1 : Matrix (Fin n) (Fin n) ℚ))
  else
    .error "module numpy has no attribute linnalg"

/-- The denominator of the SR update (`_get_SR` lines 108-110):
`np.dot(H_tmp, dx)`, incremented by `threshold` whenever its absolute value
is below `threshold`. -/
def SRdenominator {n : ℕ} (dx H_tmp : Fin n → ℚ) (threshold : ℚ) : ℚ :=
  let d := ∑ i, H_tmp i * dx i
  if |d| < threshold then d + threshold else d

/-- `QuasiNewtonInteractive._get_SR`: `outer(H_tmp, H_tmp) / denominator`. -/
def get_SR {n : ℕ} (dx _dg H_tmp : Fin n → ℚ) (threshold : ℚ) : Matrix (Fin n) (Fin n) ℚ :=
  (1 / SRdenominator dx H_tmp threshold) • Matrix.vecMulVec H_tmp H_tmp

/-- `QuasiNewtonInteractive._get_PSB`:
`(outer(H_tmp,dx) + outer(H_tmp,dx)ᵀ)/(dx·dx) - (dx·H_tmp) outer(dx,dx)/(dx·dx)²`. -/
def get_PSB {n : ℕ} (dx _dg H_tmp : Fin n → ℚ) : Matrix (Fin n) (Fin n) ℚ :=
  let dxdx := ∑ i, dx i * dx i
  let dH := Matrix.vecMulVec H_tmp dx
  (1 / dxdx) • (dH + dH.transpose)
    - ((∑ i, dx i * H_tmp i) / dxdx ^ 2) • Matrix.vecMulVec dx dx

/-- `QuasiNewtonInteractive._get_BFGS`:
`outer(dg,dg)/(dg·dx) - outer(H_tmp,H_tmp)/(dx·H_tmp)`. -/
def get_BFGS {n : ℕ} (dx dg H_tmp : Fin n → ℚ) : Matrix (Fin n) (Fin n) ℚ :=
  (1 / ∑ i, dg i * dx i) • Matrix.vecMulVec dg dg
    - (1 / ∑ i, dx i * H_tmp i) • Matrix.vecMulVec H_tmp H_tmp

/-- `QuasiNewtonInteractive.get_dg`: `g - self.g_old`. -/
def get_dg {n : ℕ} (g g_old : Fin n → ℚ) : Fin n → ℚ :=
  fun i => g i - g_old i

/-- `QuasiNewtonInteractive.update_hessian`.  On the first call
(`g_old is None`) it stores the gradient and returns with no Hessian change.
Afterwards it forms the secant residual `H_tmp = dg - H·dx` and dispatches on
`mode`; the source forwards no threshold to `_get_SR`, so the SR branch uses
the literal default `1e-4`.  An unrecognized mode raises a `ValueError`
before any attribute is assigned. -/
def update_hessian {n : ℕ} (s : Engine n) (g : Fin n → ℚ) (_threshold : ℚ) (mode : String) :
    Except String (Engine n) :=
  match s.g_old with
  | none => .ok { s with g_old := some g }
  | some gold =>
      let dg := get_dg g gold
      let dx := s.dx
      let H_tmp := fun i => dg i - s.hessian.mulVec dx i
      if mode = "SR" then
        .ok { setHessian s (get_SR dx dg H_tmp (1 / 10000) + s.hessian) with g_old := some g }
      else if mode = "PSB" then
        .ok { setHessian s (get_PSB dx dg H_tmp + s.hessian) with g_old := some g }
      else if mode = "BFGS" then
        .ok { setHessian s (get_BFGS dx dg H_tmp + s.hessian) with g_old := some g }
      else
        .error ("Mode not recognized: " ++ mode ++ ". Choose from `SR`, `PSB` and `BFGS`")

/-- `QuasiNewtonInteractive.get_dx` (the `propose_step` operation): update
the Hessian, compute `-inv_hessian · g`, optionally symmetrize it through the
structure's `symmetrize_vectors` (the argument `symV`), store it as
`self.dx` and return it. -/
def get_dx {n : ℕ} (eig : Matrix (Fin n) (Fin n) ℚ → (Fin n → ℚ) × Matrix (Fin n) (Fin n) ℚ)
    (symV : (Fin n → ℚ) → Fin n → ℚ) (s : Engine n) (g : Fin n → ℚ)
    (threshold : ℚ) (mode : String) : Except String ((Fin n → ℚ) × Engine n) := do
  let s1 ← update_hessian s g threshold mode
  let M ← invHessian eig s1
  let dx0 : Fin n → ℚ := fun i => -(M.mulVec g i)
  let dx1 := if s1.symmetrize then symV dx0 else dx0
  .ok (dx1, { s1 with dx := dx1 })

end QN

namespace QN

/-- Transpose of a rank-one product swaps its factors. -/
theorem vecMulVec_transpose {n : ℕ} (a b : Fin n → ℚ) :
    (Matrix.vecMulVec a b).transpose = Matrix.vecMulVec b a := by
  ext i j
  simp [Matrix.vecMulVec_apply, mul_comm]

/-- Evaluation of `mkEngine` without a diffusion bias. -/
theorem mkEngine_none_none (n : ℕ) (h : ℚ) (ue : Bool) (r : ℚ) (sym : Bool) :
    mkEngine n h none ue none r sym
      = (if ue ∧ (if ue then r ^ 2 else r) = 0 then
          .error "Regularization must be larger than 0 when eigenvalues are used"
        else
          .ok { use_eigenvalues := ue, regularization := if ue then r ^ 2 else r,
                hessian := h • (1 : Matrix (Fin n) (Fin n) ℚ),
                _eigenvalues := none, _eigenvectors := none, g_old := none,
                dx := fun _ => 0, symmetrize := sym }) := rfl

/-- Successive PSB updates of the Hessian, mirroring the `mode == 'PSB'`
branch of `update_hessian`: each `(dx, dg)` pair contributes
`_get_PSB(dx, dg, dg - H·dx)` added onto the current Hessian. -/
def psbIterate {n : ℕ} (H : Matrix (Fin n) (Fin n) ℚ)
    (pairs : List ((Fin n → ℚ) × (Fin n → ℚ))) : Matrix (Fin n) (Fin n) ℚ :=
  pairs.foldl
    (fun A p => get_PSB p.1 p.2 (fun i => p.2 i - A.mulVec p.1 i) + A) H

/-- A diagonal stand-in for `np.linalg.eigh` used in concrete runs: unit
eigenvalues with identity eigenvectors. -/
def eigUnit {n : ℕ} : Matrix (Fin n) (Fin n) ℚ → (Fin n → ℚ) × Matrix (Fin n) (Fin n) ℚ :=
  fun _ => (fun _ => 1, 1)

/-- A freshly constructed one-coordinate engine in eigen mode with stored
regularization 1 and seed Hessian 10. -/
def engineFreshEig : Engine 1 :=
  { use_eigenvalues := true, regularization := 1, hessian := Matrix.of ![![10]],
    _eigenvalues := none, _eigenvectors := none, g_old := none,
    dx := fun _ => 0, symmetrize := false }

end QN

/-- Claim C1, counterexample.  On a freshly constructed engine
(`g_old = none`) the very first `get_dx` call does NOT return "no
displacement at all": only `update_hessian` returns early; `get_dx` then
continues, computes `-inv_hessian·g` from the unmodified seed Hessian and
returns that displacement, whose first component here is `-1/2 ≠ 0`. -/
theorem C1_counterexample :
    (QN.get_dx QN.eigUnit id QN.engineFreshEig (fun _ => 1) (1/10000) "PSB").map
        (fun p => p.1 0)
      = .ok (-(1/2))
  ∧ (-(1/2) : ℚ) ≠ 0 := by
  constructor
  · rw [QN.get_dx, QN.update_hessian]
    simp only [QN.engineFreshEig, bind, Except.bind, QN.invHessian, QN.eigenvaluesOf,
      QN.eigenvectorsOf, QN.eigUnit]
    norm_num [Except.map, Matrix.mulVec, Matrix.dotProduct, Fin.sum_univ_one,
      Matrix.one_apply]
  · norm_num

/-- Claim C1, amended.  The first `get_dx` call performs no Hessian update
and stores the gradient as `g_old`, but still returns a displacement: the
step `-inv_hessian·g` computed from the unmodified seed Hessian (symmetrized
when a symmetry object is attached), which is also stored as `dx`. -/
theorem C1_first_call_returns_seed_step {n : ℕ}
    (eig : Matrix (Fin n) (Fin n) ℚ → (Fin n → ℚ) × Matrix (Fin n) (Fin n) ℚ)
    (symV : (Fin n → ℚ) → Fin n → ℚ) (s : QN.Engine n) (g : Fin n → ℚ)
    (t : ℚ) (mode : String) (M : Matrix (Fin n) (Fin n) ℚ)
    (h : s.g_old = none)
    (hinv : QN.invHessian eig { s with g_old := some g } = .ok M) :
    QN.get_dx eig symV s g t mode
      = .ok (if s.symmetrize then symV (fun i => -(M.mulVec g i)) else fun i => -(M.mulVec g i),
             { s with g_old := some g,
                      dx := if s.symmetrize then symV (fun i => -(M.mulVec g i))
                            else fun i => -(M.mulVec g i) }) := by
  rw [QN.get_dx, QN.update_hessian, h]
  simp only [bind, Except.bind]
  rw [hinv]

/-- The half-step matrix that `eigUnit` induces on `engineFreshEig`. -/
def halfM : Matrix (Fin 1) (Fin 1) ℚ := Matrix.of fun _ _ => 1/2

/-- The displacement the seed Hessian of `engineFreshEig` yields on the
gradient `fun _ => 2`. -/
def c1dxW : Fin 1 → ℚ := fun i => -(halfM.mulVec (fun _ => 2) i)

/-- Witness for C1: the amended theorem applied to the concrete fresh
one-coordinate engine. -/
theorem C1_first_call_returns_seed_step_witness :
    QN.get_dx QN.eigUnit id QN.engineFreshEig (fun _ => 2) (1/10000) "SR"
      = .ok (if QN.engineFreshEig.symmetrize then id c1dxW else c1dxW,
             { QN.engineFreshEig with
                 g_old := some (fun _ => 2),
                 dx := if QN.engineFreshEig.symmetrize then id c1dxW else c1dxW }) :=
  C1_first_call_returns_seed_step QN.eigUnit id QN.engineFreshEig (fun _ => 2) (1/10000) "SR"
    halfM rfl (by
      rw [QN.invHessian]
      simp only [QN.engineFreshEig, QN.eigenvaluesOf, QN.eigenvectorsOf, QN.eigUnit]
      norm_num
      funext i j
      fin_cases i
      fin_cases j
      simp [halfM, Fin.sum_univ_one, Matrix.one_apply])

/-- Claim C2 (code bug).  With eigen-mode disabled and regularization 0, an
engine seeded with the isotropic Hessian `k·I` (here `k = 2` on a 2-atom,
6-coordinate system) does not return `dx = -g/k` on `get_dx` for
`g = [1,0,0,-1,0,0]`: the zero-regularization branch of `inv_hessian`
evaluates `np.linnalg.inv` — a typo for `np.linalg.inv` — and raises
`AttributeError`, so the call crashes before any displacement is computed. -/
theorem C2_linnalg_crash :
    (QN.mkEngine 6 2 none false none 0 false).bind
      (fun s => QN.get_dx QN.eigUnit id s ![1, 0, 0, -1, 0, 0] (1/10000) "PSB")
    = .error "module numpy has no attribute linnalg" := rfl

/-- Claim C3, counterexample.  The SR-update nudge is not sign-preserving:
for `H_tmp = [1]`, `dx = [-3/5]`, `threshold = 1`, the raw denominator
`dot(H_tmp, dx) = -3/5` is negative, yet the effective denominator is
`-3/5 + 1 = 2/5 > 0` — the sign flips and the absolute value shrinks from
`3/5` to `2/5`. -/
theorem C3_counterexample :
    QN.SRdenominator ![(-3/5 : ℚ)] ![1] 1 = 2/5
  ∧ (∑ i, (![1] : Fin 1 → ℚ) i * (![(-3/5 : ℚ)]) i) = -3/5
  ∧ (-3/5 : ℚ) < 0 ∧ (0 : ℚ) < 2/5
  ∧ |(2/5 : ℚ)| < |(-3/5 : ℚ)| := by
  refine ⟨?_, ?_, by norm_num, by norm_num, by rw [abs_of_pos, abs_of_neg] <;> norm_num⟩
  · rw [QN.SRdenominator]
    norm_num [Fin.sum_univ_one, abs_lt]
  · norm_num [Fin.sum_univ_one]

/-- Claim C3, amended.  The code adds `+threshold` unconditionally whenever
`|dot(H_tmp, dx)| < threshold` (not with the denominator's own sign).  For a
nonnegative raw denominator and `threshold > 0` the effective denominator
stays nonnegative and its absolute value never decreases; a negative raw
denominator may flip sign and lose magnitude (see the counterexample). -/
theorem C3_nudge_nonneg_denominator {n : ℕ} (dx H_tmp : Fin n → ℚ) (t : ℚ)
    (ht : 0 < t) (hd : 0 ≤ ∑ i, H_tmp i * dx i) :
    0 ≤ QN.SRdenominator dx H_tmp t
  ∧ |∑ i, H_tmp i * dx i| ≤ |QN.SRdenominator dx H_tmp t| := by
  rw [QN.SRdenominator]
  set d := ∑ i, H_tmp i * dx i with hdef
  by_cases h : |d| < t
  · rw [if_pos h]
    constructor
    · linarith
    · rw [abs_of_nonneg hd, abs_of_nonneg (by linarith)]
      linarith
  · rw [if_neg h]
    exact ⟨hd, le_refl _⟩

/-- Witness for C3: the amended theorem at `H_tmp = [1]`, `dx = [1/2]`,
`threshold = 1`. -/
theorem C3_nudge_nonneg_denominator_witness :
    0 ≤ QN.SRdenominator ![(1/2 : ℚ)] ![1] 1
  ∧ |∑ i, (![1] : Fin 1 → ℚ) i * (![(1/2 : ℚ)]) i| ≤ |QN.SRdenominator ![(1/2 : ℚ)] ![1] 1| :=
  C3_nudge_nonneg_denominator ![(1/2 : ℚ)] ![1] 1 (by norm_num)
    (by norm_num [Fin.sum_univ_one])

/-- Claim C4, counterexample.  An engine constructed in eigen-mode with
regularization `r = 2` does not damp a unit eigenvalue to
`λ/(λ²+r) = 1/3`: the constructor stores `r² = 4`, so `inv_hessian`
damps it to `λ/(λ²+r²) = 1/5`. -/
theorem C4_counterexample :
    (QN.mkEngine 1 10 none true none 2 false).bind
        (fun s => QN.invHessian (fun _ => (fun _ => 1, 1)) s)
      = .ok (Matrix.diagonal fun _ => 1/5)
  ∧ (1/5 : ℚ) ≠ 1 / (1^2 + 2) := by
  constructor
  · rw [QN.mkEngine_none_none]
    norm_num [bind, Except.bind]
    rw [QN.invHessian]
    norm_num [QN.eigenvaluesOf, QN.eigenvectorsOf]
    funext i j
    fin_cases i
    fin_cases j
    simp [Fin.sum_univ_one, Matrix.one_apply, Matrix.diagonal]
  · norm_num

/-- Claim C4, amended.  With eigen-mode enabled and regularization `r > 0`
supplied at construction, the eigen-path of `inv_hessian` damps each
eigenvalue `λ` to `λ / (λ² + r²)` — the constructor squares the supplied
constant, so the per-mode Tikhonov damping uses `r²`, not `r`.  Stated for a
diagonal Hessian, i.e. an eigendecomposition with eigenvalues `d` and
identity eigenvectors. -/
theorem C4_eigen_damping_squares_regularization {n : ℕ} (d : Fin n → ℚ) (r : ℚ)
    (hr : 0 < r) (s : QN.Engine n)
    (hs : QN.mkEngine n 10 none true none r false = .ok s) :
    QN.invHessian (fun _ => (d, 1)) s
      = .ok (Matrix.diagonal fun i => d i / ((d i) ^ 2 + r ^ 2)) := by
  rw [QN.mkEngine_none_none] at hs
  rw [if_neg (by simp; positivity)] at hs
  have hs2 := Except.ok.inj hs
  rw [← hs2]
  rw [QN.invHessian]
  rw [if_pos (by simp; positivity), if_pos rfl]
  congr 1
  ext i j
  simp only [QN.eigenvaluesOf, QN.eigenvectorsOf, Matrix.of_apply, Matrix.one_apply,
    Matrix.diagonal]
  rw [Finset.sum_eq_single j]
  · by_cases hij : i = j <;> simp [hij]
  · intro b _ hb
    simp [Ne.symm hb]
  · simp

/-- Witness for C4: the amended theorem at `n = 1`, `d = (fun _ => 3)`,
`r = 2`. -/
theorem C4_eigen_damping_squares_regularization_witness :
    QN.invHessian (fun _ => (fun _ => 3, 1))
        { use_eigenvalues := true, regularization := (2:ℚ) ^ 2,
          hessian := (10:ℚ) • (1 : Matrix (Fin 1) (Fin 1) ℚ),
          _eigenvalues := none, _eigenvectors := none, g_old := none,
          dx := fun _ => 0, symmetrize := false }
      = .ok (Matrix.diagonal fun _ => (3:ℚ) / ((3:ℚ) ^ 2 + (2:ℚ) ^ 2)) :=
  C4_eigen_damping_squares_regularization (fun _ => 3) 2 (by norm_num) _ (by
    rw [QN.mkEngine_none_none]
    norm_num)

/-- Claim C5 (confirmed).  For a symmetric Hessian and any `(dx, dg)` pair
with `dx ≠ 0`, the PSB increment `_get_PSB(dx, dg, dg - H·dx)` is a
symmetric matrix, and consequently the Hessian remains symmetric after any
number of successive PSB updates (`psbIterate`) from a symmetric seed. -/
theorem C5_psb_updates_preserve_symmetry {n : ℕ} (dx dg : Fin n → ℚ)
    (H : Matrix (Fin n) (Fin n) ℚ)
    (pairs : List ((Fin n → ℚ) × (Fin n → ℚ)))
    (_hdx : dx ≠ 0) (hH : H.transpose = H)
    (_hpairs : ∀ p ∈ pairs, p.1 ≠ (0 : Fin n → ℚ)) :
    (QN.get_PSB dx dg (fun i => dg i - H.mulVec dx i)).transpose
        = QN.get_PSB dx dg (fun i => dg i - H.mulVec dx i)
  ∧ (QN.psbIterate H pairs).transpose = QN.psbIterate H pairs := by
  have hstep : ∀ (a b : Fin n → ℚ) (A : Matrix (Fin n) (Fin n) ℚ),
      (QN.get_PSB a b (fun i => b i - A.mulVec a i)).transpose
        = QN.get_PSB a b (fun i => b i - A.mulVec a i) := by
    intro a b A
    rw [QN.get_PSB]
    simp only [Matrix.transpose_sub, Matrix.transpose_smul, Matrix.transpose_add,
      Matrix.transpose_transpose, QN.vecMulVec_transpose]
    rw [add_comm]
  refine ⟨hstep dx dg H, ?_⟩
  clear _hdx _hpairs
  induction pairs generalizing H with
  | nil => exact hH
  | cons p rest ih =>
      rw [QN.psbIterate, List.foldl_cons]
      apply ih
      rw [Matrix.transpose_add, hstep p.1 p.2 H, hH]

/-- Witness for C5: the symmetry statement at a concrete one-dimensional
update sequence. -/
theorem C5_psb_updates_preserve_symmetry_witness :
    ((QN.get_PSB ![(2:ℚ)] ![3] (fun i => (![3] : Fin 1 → ℚ) i
          - (!![7] : Matrix (Fin 1) (Fin 1) ℚ).mulVec ![2] i)).transpose
        = QN.get_PSB ![(2:ℚ)] ![3] (fun i => (![3] : Fin 1 → ℚ) i
          - (!![7] : Matrix (Fin 1) (Fin 1) ℚ).mulVec ![2] i))
  ∧ (QN.psbIterate (!![7] : Matrix (Fin 1) (Fin 1) ℚ)
        [(![(2:ℚ)], ![3]), (![(1:ℚ)], ![5])]).transpose
      = QN.psbIterate (!![7] : Matrix (Fin 1) (Fin 1) ℚ)
        [(![(2:ℚ)], ![3]), (![(1:ℚ)], ![5])] :=
  C5_psb_updates_preserve_symmetry ![(2:ℚ)] ![3] !![7]
    [(![(2:ℚ)], ![3]), (![(1:ℚ)], ![5])]
    (by decide) (by decide) (by decide)

/-- Claim C7, counterexample.  In the just-constructed state
(`g_old = none`) a call to `update_hessian` with the unrecognized mode
`"XY"` raises no error at all and mutates `g_old` (it seeds it with the
supplied gradient), contradicting the claim that such a call fails
immediately with `g_old` unchanged in every state. -/
theorem C7_counterexample :
    QN.update_hessian QN.engineFreshEig (fun _ => 1) (1/10000) "XY"
      = .ok { QN.engineFreshEig with g_old := some (fun _ => 1) }
  ∧ some (fun _ => (1:ℚ) : Fin 1 → ℚ) ≠ QN.engineFreshEig.g_old := by
  refine ⟨rfl, ?_⟩
  intro hc
  exact Option.noConfusion hc

/-- Claim C7, amended.  An update-mode name outside `{SR, PSB, BFGS}` makes
`update_hessian` (and hence `get_dx`) raise the `Mode not recognized` error
with `hessian` and `g_old` untouched — but only in a seeded state
(`g_old` already set).  In the just-constructed state the call instead
stores the gradient as `g_old` and returns without ever inspecting the
mode. -/
theorem C7_unknown_mode_raises_when_seeded {n : ℕ} (s : QN.Engine n)
    (g : Fin n → ℚ) (t : ℚ) (mode : String)
    (hmode : mode ≠ "SR" ∧ mode ≠ "PSB" ∧ mode ≠ "BFGS") :
    (s.g_old = none → QN.update_hessian s g t mode = .ok { s with g_old := some g })
  ∧ (∀ g0, s.g_old = some g0 →
      QN.update_hessian s g t mode
        = .error ("Mode not recognized: " ++ mode
            ++ ". Choose from `SR`, `PSB` and `BFGS`")) := by
  constructor
  · intro h
    rw [QN.update_hessian, h]
  · intro g0 h
    rw [QN.update_hessian, h]
    simp only [if_neg hmode.1, if_neg hmode.2.1, if_neg hmode.2.2]

/-- Witness for C7: the amended theorem applied in a seeded state with the
unrecognized mode `"XY"`. -/
theorem C7_unknown_mode_raises_when_seeded_witness :
    QN.update_hessian { QN.engineFreshEig with g_old := some (fun _ => 0) }
        (fun _ => 1) (1/10000) "XY"
      = .error ("Mode not recognized: " ++ "XY"
          ++ ". Choose from `SR`, `PSB` and `BFGS`") :=
  (C7_unknown_mode_raises_when_seeded
      { QN.engineFreshEig with g_old := some (fun _ => 0) }
      (fun _ => 1) (1/10000) "XY"
      ⟨by decide, by decide, by decide⟩).2 (fun _ => 0) rfl

namespace HProp

/-- Split a flat list into consecutive chunks of `k` entries, with explicit
fuel for structural recursion (`fuel ≥ v.length` makes it total). -/
def toChunksAux (k : ℕ) : ℕ → List ℚ → List (List ℚ)
  | 0, _ => []
  | fuel + 1, v => if v = [] then [] else v.take k :: toChunksAux k fuel (v.drop k)

/-- Reshape of a flat array into rows of `k` consecutive entries. -/
def toChunks (k : ℕ) (v : List ℚ) : List (List ℚ) :=
  if k = 0 then [] else toChunksAux k v.length v

/-- The state touched by the `hessian` property of
`QuasiNewtonInteractive`: the stored matrix and the two eigen caches. -/
structure St where
  _hessian : List (List ℚ)
  _eigenvalues : Option (List ℚ)
  _eigenvectors : Option (List (List ℚ))
deriving DecidableEq

/-- The `hessian` property setter: reshape the supplied flat value into a
square `length × length` matrix with `length = int(sqrt(prod(shape)))`, and
clear both cached eigen objects. -/
def hessianSet (_s : St) (v : List ℚ) : St :=
  { _hessian := toChunks (Nat.sqrt v.length) v,
    _eigenvalues := none, _eigenvectors := none }

/-- The lazy `eigenvalues` property: recompute through `np.linalg.eigh`
(the argument `eig`) when the cache is clear. -/
def eigenvaluesGet (eig : List (List ℚ) → List ℚ × List (List ℚ)) (s : St) : List ℚ :=
  match s._eigenvalues with
  | some e => e
  | none => (eig s._hessian).1

/-- The lazy `eigenvectors` property. -/
def eigenvectorsGet (eig : List (List ℚ) → List ℚ × List (List ℚ)) (s : St) : List (List ℚ) :=
  match s._eigenvectors with
  | some e => e
  | none => (eig s._hessian).2

/-- Chunking a list whose length is a multiple of `k > 0` yields
`length / k` rows of `k` entries that flatten back to the list. -/
theorem toChunksAux_spec (k : ℕ) (hk : 0 < k) :
    ∀ (fuel : ℕ) (v : List ℚ), v.length ≤ fuel → k ∣ v.length →
      (toChunksAux k fuel v).length = v.length / k
      ∧ (∀ r ∈ toChunksAux k fuel v, r.length = k)
      ∧ (toChunksAux k fuel v).flatten = v := by
  intro fuel
  induction fuel with
  | zero =>
      intro v hv _
      have h0 : v = [] := List.eq_nil_of_length_eq_zero (Nat.le_zero.mp hv)
      subst h0
      exact ⟨by simp [toChunksAux], by simp [toChunksAux], by simp [toChunksAux]⟩
  | succ m ih =>
      intro v hv hdvd
      by_cases hnil : v = []
      · subst hnil
        exact ⟨by simp [toChunksAux], by simp [toChunksAux], by simp [toChunksAux]⟩
      · have hvpos : 0 < v.length := List.length_pos.mpr hnil
        have hlen : k ≤ v.length := Nat.le_of_dvd hvpos hdvd
        have hdroplen : (v.drop k).length = v.length - k := List.length_drop k v
        have hdvd2 : k ∣ (v.drop k).length := by
          rw [hdroplen]
          exact Nat.dvd_sub' hdvd dvd_rfl
        have hfuel2 : (v.drop k).length ≤ m := by
          rw [hdroplen]
          omega
        obtain ⟨ih1, ih2, ih3⟩ := ih (v.drop k) hfuel2 hdvd2
        have htake : (v.take k).length = k := by
          rw [List.length_take]
          exact Nat.min_eq_left hlen
        have heq : toChunksAux k (m + 1) v = v.take k :: toChunksAux k m (v.drop k) := by
          rw [toChunksAux, if_neg hnil]
        obtain ⟨c, hc⟩ := hdvd
        match c, hc with
        | 0, hc => omega
        | c0 + 1, hc =>
            have hc2 : v.length = k * c0 + k := by
              rw [hc, Nat.mul_succ]
            have hsub : v.length - k = k * c0 := by omega
            have hdiv1 : (v.length - k) / k = c0 := by
              rw [hsub, Nat.mul_div_cancel_left _ hk]
            have hdiv2 : v.length / k = c0 + 1 := by
              rw [hc, Nat.mul_div_cancel_left _ hk]
            refine ⟨?_, ?_, ?_⟩
            · rw [heq, List.length_cons, ih1, hdroplen, hdiv1, hdiv2]
            · intro r hr
              rw [heq] at hr
              rcases List.mem_cons.mp hr with h | h
              · rw [h]
                exact htake
              · exact ih2 r h
            · rw [heq, List.flatten_cons, ih3, List.take_append_drop]

/-- Claim C6 (confirmed).  Every assignment through the `hessian` setter of
a value with `(3N)²` entries reshapes it into a square matrix of side
`3N = 3 × atom_count` (whose rows flatten back to the assigned value) and
clears both eigen caches, so the next read of `eigenvalues`/`eigenvectors`
recomputes the eigendecomposition of the newly stored Hessian rather than
returning stale cached pairs. -/
theorem C6_hessian_setter_reshapes_and_invalidates (N : ℕ) (s : St) (v : List ℚ)
    (eig : List (List ℚ) → List ℚ × List (List ℚ))
    (hv : v.length = (3 * N) ^ 2) :
    (hessianSet s v)._hessian.length = 3 * N
  ∧ (∀ r ∈ (hessianSet s v)._hessian, r.length = 3 * N)
  ∧ (hessianSet s v)._hessian.flatten = v
  ∧ (hessianSet s v)._eigenvalues = none
  ∧ (hessianSet s v)._eigenvectors = none
  ∧ eigenvaluesGet eig (hessianSet s v) = (eig (hessianSet s v)._hessian).1
  ∧ eigenvectorsGet eig (hessianSet s v) = (eig (hessianSet s v)._hessian).2 := by
  have hsqrt : Nat.sqrt v.length = 3 * N := by
    rw [hv, pow_two, Nat.sqrt_eq]
  rcases Nat.eq_zero_or_pos (3 * N) with h0 | hpos
  · have hl0 : v.length = 0 := by
      rw [hv, h0]
      rfl
    have hv0 : v = [] := List.eq_nil_of_length_eq_zero hl0
    subst hv0
    rw [h0]
    refine ⟨?_, ?_, ?_, rfl, rfl, rfl, rfl⟩ <;>
      simp [hessianSet, toChunks, toChunksAux]
  · have hdvd : 3 * N ∣ v.length := by
      rw [hv, pow_two]
      exact Dvd.intro _ rfl
    obtain ⟨h1, h2, h3⟩ :=
      toChunksAux_spec (3 * N) hpos v.length v (le_refl _) hdvd
    have hts : (hessianSet s v)._hessian = toChunksAux (3 * N) v.length v := by
      show toChunks (Nat.sqrt v.length) v = _
      rw [toChunks, hsqrt, if_neg (Nat.pos_iff_ne_zero.mp hpos)]
    refine ⟨?_, ?_, ?_, rfl, rfl, rfl, rfl⟩
    · rw [hts, h1, hv, pow_two, Nat.mul_div_cancel_left _ hpos]
    · rw [hts]
      exact h2
    · rw [hts, h3]

/-- A state holding stale eigen caches, used to witness that the setter
clears them. -/
def stStale : St :=
  { _hessian := [[5]], _eigenvalues := some [99], _eigenvectors := some [[99]] }

/-- A concrete stand-in for `np.linalg.eigh` on list matrices. -/
def eigLen : List (List ℚ) → List ℚ × List (List ℚ) :=
  fun m => ([(m.length : ℚ)], m)

/-- Witness for C6: the setter applied with `N = 1` to a 9-entry value on a
state holding stale caches. -/
theorem C6_hessian_setter_reshapes_and_invalidates_witness :
    (hessianSet stStale [1, 2, 3, 4, 5, 6, 7, 8, 9])._hessian.length = 3 * 1
  ∧ (∀ r ∈ (hessianSet stStale [1, 2, 3, 4, 5, 6, 7, 8, 9])._hessian, r.length = 3 * 1)
  ∧ (hessianSet stStale [1, 2, 3, 4, 5, 6, 7, 8, 9])._hessian.flatten
      = [1, 2, 3, 4, 5, 6, 7, 8, 9]
  ∧ (hessianSet stStale [1, 2, 3, 4, 5, 6, 7, 8, 9])._eigenvalues = none
  ∧ (hessianSet stStale [1, 2, 3, 4, 5, 6, 7, 8, 9])._eigenvectors = none
  ∧ eigenvaluesGet eigLen (hessianSet stStale [1, 2, 3, 4, 5, 6, 7, 8, 9])
      = (eigLen (hessianSet stStale [1, 2, 3, 4, 5, 6, 7, 8, 9])._hessian).1
  ∧ eigenvectorsGet eigLen (hessianSet stStale [1, 2, 3, 4, 5, 6, 7, 8, 9])
      = (eigLen (hessianSet stStale [1, 2, 3, 4, 5, 6, 7, 8, 9])._hessian).2 :=
  C6_hessian_setter_reshapes_and_invalidates 1 stStale
    [1, 2, 3, 4, 5, 6, 7, 8, 9] eigLen (by decide)

end HProp

namespace FD

/-- Dot product of flat rational lists. -/
def dotL (a b : List ℚ) : ℚ :=
  (List.zipWith (· * ·) a b).sum

/-- Matrix·vector product on list matrices. -/
def matVecL (m : List (List ℚ)) (v : List ℚ) : List ℚ :=
  m.map (fun row => dotL row v)

/-- Stable insertion of index `i` into an index list sorted by the values
`vals`. -/
def insertSorted (vals : List ℕ) (i : ℕ) : List ℕ → List ℕ
  | [] => [i]
  | j :: rest =>
      if vals.getD i 0 ≤ vals.getD j 0 then i :: j :: rest
      else j :: insertSorted vals i rest

/-- `np.argsort`: the index permutation that sorts `vals`. -/
def argsort (vals : List ℕ) : List ℕ :=
  (List.range vals.length).foldr (insertSorted vals) []

/-- One symmetry operation as it acts on per-atom vector fields: the
atom-index row the operation induces (`Hessian.indices`) together with its
3×3 rotation matrix. -/
structure SymOp where
  indices : List ℕ
  rot : List (List ℚ)
deriving DecidableEq

/-- The identity operation on `N` atoms. -/
def idOp (N : ℕ) : SymOp :=
  { indices := List.range N, rot := [[1, 0, 0], [0, 1, 0], [0, 0, 1]] }

/-- Application of one symmetry operation to a flattened per-atom field
(`v[np.argsort(indices)]` on atom rows, then `einsum('nxy,nmy->nmx')` with
the rotation). -/
def applyOp (op : SymOp) (v : List ℚ) : List ℚ :=
  let rows := HProp.toChunks 3 v
  let reordered := (argsort op.indices).map (fun i => rows.getD i [])
  (reordered.map (fun r => matVecL op.rot r)).flatten

/-- Ascending list of the first-occurrence positions of the distinct rows
(`np.sort(np.unique(result, return_index=True, axis=0)[1])`). -/
def uniqueFirstIdx (rows : List (List ℚ)) : List ℕ :=
  (List.range rows.length).filter (fun i => decide ((rows.getD i []) ∉ rows.take i))

/-- `Hessian._get_equivalent_vector`: transform the field by every symmetry
operation; select either the supplied index subset or the
first-occurrence subset of distinct transforms; return the selected
transforms together with the subset. -/
def get_equivalent_vector (ops : List SymOp) (v : List ℚ) (indices : Option (List ℕ)) :
    List (List ℚ) × List ℕ :=
  let result := ops.map (fun op => applyOp op v)
  let idxs := match indices with
    | some i => i
    | none => uniqueFirstIdx result
  (idxs.map (fun i => result.getD i []), idxs)

/-- The accumulating state of the `Hessian` builder (displacement fields are
flattened to length `3N`). -/
structure Builder where
  dx : ℚ
  displacements : List (List ℚ)
  inequivalent_displacements : List (List ℚ)
  inequivalent_ids : List (List ℕ)
  inequivalent_forces : List (List ℚ)
deriving DecidableEq

/-- `Hessian.set_forces`: reject a forces array whose shape differs from
the raw displacement array, otherwise re-expand each per-probe force field
through the probe's stored symmetry-index subset and extend the accumulated
inequivalent forces. -/
def set_forces (ops : List SymOp) (b : Builder) (forces : List (List ℚ)) :
    Except String Builder :=
  if forces.length = b.displacements.length
      ∧ (List.zip forces b.displacements).all (fun p => p.1.length == p.2.length) then
    .ok { b with inequivalent_forces :=
      b.inequivalent_forces
        ++ ((List.zip forces b.inequivalent_ids).map
              (fun p => (get_equivalent_vector ops p.1 (some p.2)).1)).flatten }
  else
    .error "Force shape does not match displacement shape"

/-- The least-squares tail of `Hessian.get_hessian`:
`X = einsum('ik,ij->kj', D, D)`, `Y = einsum('in,ik->nk', F, D)`,
result `-einsum('kj,nk->nj', inv(X), Y)`; `np.linalg.inv` raises on a
singular Gram matrix. -/
def lsqHessian (b : Builder) : Except String (List (List ℚ)) :=
  let D := b.inequivalent_displacements
  let F := b.inequivalent_forces
  let m := (D.headD []).length
  let X : Matrix (Fin m) (Fin m) ℚ :=
    Matrix.of fun k j => (D.map (fun row => row.getD k.val 0 * row.getD j.val 0)).sum
  match QN.npInv X with
  | .error e => .error e
  | .ok Xi =>
      let nf := (F.headD []).length
      let Y : ℕ → Fin m → ℚ := fun nn k =>
        ((List.zip F D).map (fun p => p.1.getD nn 0 * p.2.getD k.val 0)).sum
      .ok ((List.range nf).map (fun nn =>
        (List.finRange m).map (fun j =>
          -(((List.finRange m).map (fun k => Xi k j * Y nn k)).sum))))

/-- `Hessian.get_hessian`: raise `Forces not set yet` when no forces were
given now or before; store call-time forces through `set_forces`; then
solve the least-squares system. -/
def get_hessian (ops : List SymOp) (b : Builder) (forces : Option (List (List ℚ))) :
    Except String (List (List ℚ)) :=
  if forces = none ∧ b.inequivalent_forces = [] then
    .error "Forces not set yet"
  else
    match forces with
    | some f => (set_forces ops b f).bind lsqHessian
    | none => lsqHessian b

/-- `np.isclose(x, 0)` with the default tolerances (`atol = 1e-8`,
`rtol` irrelevant against 0). -/
def isCloseZero (a : ℚ) : Bool :=
  decide (|a| ≤ 1 / 100000000)

/-- `Hessian._get_next_displacement`: zeros shaped like the coverage array
with `dx` written into the first entry that is still (close to) zero. -/
def nextDisplacement (cov : List ℚ) (dx : ℚ) : List ℚ :=
  (cov.map (fun _ => (0 : ℚ))).set (cov.findIdx isCloseZero) dx

/-- `np.absolute(rows).sum(axis=0)` for a nonempty list of equally-long
rows. -/
def sumAbsRows (rows : List (List ℚ)) : List ℚ :=
  match rows with
  | [] => []
  | r :: rest => rest.foldl (fun acc q => List.zipWith (· + ·) acc (q.map (|·|))) (r.map (|·|))

/-- The loop state of `Hessian._generate_displacements`. -/
structure GenState where
  coverage : List ℚ
  displacements : List (List ℚ)
  inequivalent_displacements : List (List ℚ)
  inequivalent_ids : List (List ℕ)
deriving DecidableEq

/-- The body of `Hessian._generate_displacements`: up to `fuel` times, stop
if no coverage entry is (close to) zero, otherwise probe the first
uncovered atom-direction, reduce the probe to its symmetry-distinct copies,
record everything and add the summed absolute copies onto the coverage. -/
def genLoop (ops : List SymOp) (dx : ℚ) : ℕ → GenState → GenState
  | 0, st => st
  | fuel + 1, st =>
      if st.coverage.any isCloseZero then
        let d := nextDisplacement st.coverage dx
        let r := get_equivalent_vector ops d none
        genLoop ops dx fuel
          { coverage := List.zipWith (· + ·) st.coverage (sumAbsRows r.1),
            displacements := st.displacements ++ [d],
            inequivalent_displacements := st.inequivalent_displacements ++ r.1,
            inequivalent_ids := st.inequivalent_ids ++ [r.2] }
      else st

/-- `Hessian._generate_displacements` for an `N`-atom structure: the loop
runs over `range(3N)` starting from an all-zero coverage array and empty
accumulators. -/
def generate_displacements (ops : List SymOp) (N : ℕ) (dx : ℚ) : GenState :=
  genLoop ops dx (3 * N)
    { coverage := List.replicate (3 * N) 0, displacements := [],
      inequivalent_displacements := [], inequivalent_ids := [] }

/-- The flattened field with `dx` at position `pos` and zeros elsewhere. -/
def stdBasis (len pos : ℕ) (dx : ℚ) : List ℚ :=
  (List.replicate len (0 : ℚ)).set pos dx

end FD

namespace FD

/-- `np.linalg.inv` fails only with the singular-matrix error. -/
theorem npInv_error_eq {n : ℕ} (A : Matrix (Fin n) (Fin n) ℚ) (e : String)
    (h : QN.npInv A = .error e) : e = "Singular matrix" := by
  rw [QN.npInv] at h
  by_cases hdet : A.det = 0
  · rw [if_pos hdet] at h
    exact (Except.error.inj h).symm
  · rw [if_neg hdet] at h
    exact Except.noConfusion h

/-- The least-squares tail never produces the `Forces not set yet` error. -/
theorem lsqHessian_ne_forces_error (b : Builder) :
    lsqHessian b ≠ .error "Forces not set yet" := by
  intro h
  rw [lsqHessian] at h
  split at h
  · next e heq =>
      have he := npInv_error_eq _ e heq
      rw [he] at h
      exact absurd (Except.error.inj h) (by decide)
  · exact Except.noConfusion h

/-- `set_forces` fails only with the shape-mismatch error. -/
theorem set_forces_error_eq (ops : List SymOp) (b : Builder) (f : List (List ℚ)) (e : String)
    (h : set_forces ops b f = .error e) : e = "Force shape does not match displacement shape" := by
  rw [set_forces] at h
  split at h
  · exact Except.noConfusion h
  · exact (Except.error.inj h).symm

end FD

/-- Claim C9, counterexample.  `get_hessian` can raise even though forces
ARE supplied at call time: a call-time forces array of mismatched shape is
forwarded to `set_forces`, which raises the shape error — so "raises if and
only if no forces were supplied" fails in the only-if direction. -/
theorem C9_counterexample :
    FD.get_hessian [FD.idOp 1]
        { dx := 1/100, displacements := [[1/100, 0, 0]],
          inequivalent_displacements := [[1/100, 0, 0]],
          inequivalent_ids := [[0]], inequivalent_forces := [] }
        (some [[1, 0]])
      = .error "Force shape does not match displacement shape"
  ∧ (some [[(1:ℚ), 0]] : Option (List (List ℚ))) ≠ none := by
  refine ⟨by decide, ?_⟩
  intro hc
  exact Option.noConfusion hc

/-- Claim C9, amended.  `get_hessian` raises the `Forces not set yet` error
exactly when forces are neither supplied at call time nor stored by an
earlier `set_forces`; when forces are supplied at call time it first stores
them via `set_forces` — which can itself fail on a shape mismatch — and only
then computes the least-squares estimate (which can fail on a singular Gram
matrix). -/
theorem C9_forces_error_iff_unset (ops : List FD.SymOp) (b : FD.Builder)
    (forces : Option (List (List ℚ))) :
    (FD.get_hessian ops b forces = .error "Forces not set yet"
       ↔ forces = none ∧ b.inequivalent_forces = [])
  ∧ (∀ f, FD.get_hessian ops b (some f) = (FD.set_forces ops b f).bind FD.lsqHessian) := by
  have hsome : ∀ f : List (List ℚ),
      FD.get_hessian ops b (some f) = (FD.set_forces ops b f).bind FD.lsqHessian := by
    intro f
    rw [FD.get_hessian, if_neg]
    intro hc
    exact Option.noConfusion hc.1
  refine ⟨?_, hsome⟩
  match forces with
  | none =>
      by_cases hF : b.inequivalent_forces = []
      · rw [FD.get_hessian, if_pos ⟨rfl, hF⟩]
        exact ⟨fun _ => ⟨rfl, hF⟩, fun _ => rfl⟩
      · rw [FD.get_hessian, if_neg (fun hc => hF hc.2)]
        constructor
        · intro h
          exact absurd h (FD.lsqHessian_ne_forces_error b)
        · intro h
          exact absurd h.2 hF
  | some f =>
      rw [hsome f]
      constructor
      · intro h
        cases hsf : FD.set_forces ops b f with
        | error e =>
            rw [hsf] at h
            have he := FD.set_forces_error_eq ops b f e hsf
            rw [he] at h
            exact absurd (Except.error.inj h) (by decide)
        | ok b2 =>
            rw [hsf] at h
            exact absurd h (FD.lsqHessian_ne_forces_error b2)
      · intro h
        exact Option.noConfusion h.1

namespace FD

/-- Reading each index of a list back through `getD` reproduces the list. -/
theorem map_getD_range {α : Type} (d : α) :
    ∀ l : List α, (List.range l.length).map (fun i => l.getD i d) = l := by
  intro l
  induction l with
  | nil => rfl
  | cons a w ih =>
      rw [List.length_cons, List.range_succ_eq_map, List.map_cons, List.map_map]
      show (a :: w).getD 0 d :: _ = _
      have hcomp : ((fun i => (a :: w).getD i d) ∘ Nat.succ) = fun i => w.getD i d := rfl
      rw [hcomp, ih]
      rfl

/-- `argsort` of an already strictly increasing index list (here
`range N`) is the identity permutation. -/
theorem argsort_range (N : ℕ) : argsort (List.range N) = List.range N := by
  have key : ∀ (m k : ℕ), k + m ≤ N →
      (List.range' k m).foldr (insertSorted (List.range N)) [] = List.range' k m := by
    intro m
    induction m with
    | zero => intro k _; rfl
    | succ m0 ih =>
        intro k hk
        rw [List.range'_succ k m0 1, List.foldr_cons, ih (k + 1) (by omega)]
        match m0 with
        | 0 => rfl
        | m1 + 1 =>
            rw [List.range'_succ (k + 1) m1 1, insertSorted]
            have hk1 : k < N := by omega
            have hk2 : k + 1 < N := by omega
            have g1 : (List.range N).getD k 0 = k := by
              rw [List.getD_eq_getElem?_getD, List.getElem?_range hk1]
              rfl
            have g2 : (List.range N).getD (k + 1) 0 = k + 1 := by
              rw [List.getD_eq_getElem?_getD, List.getElem?_range hk2]
              rfl
            rw [g1, g2, if_pos (by omega), ← List.range'_succ (k + 1) m1 1]
  rw [argsort, List.length_range]
  nth_rewrite 2 3 [List.range_eq_range']
  exact key N 0 (by omega)

/-- The identity rotation fixes every 3-vector. -/
theorem matVecL_idRot (r : List ℚ) (hr : r.length = 3) :
    matVecL [[1, 0, 0], [0, 1, 0], [0, 0, 1]] r = r := by
  obtain ⟨x, y, z, rfl⟩ := List.length_eq_three.mp hr
  show [dotL [1, 0, 0] [x, y, z], dotL [0, 1, 0] [x, y, z], dotL [0, 0, 1] [x, y, z]]
      = [x, y, z]
  simp [dotL]

/-- The identity symmetry operation fixes every field of matching length. -/
theorem applyOp_idOp (N : ℕ) (v : List ℚ) (hv : v.length = 3 * N) :
    applyOp (idOp N) v = v := by
  have h3 : (0:ℕ) < 3 := by omega
  have hdvd : 3 ∣ v.length := by
    rw [hv]
    exact Dvd.intro N rfl
  obtain ⟨h1, h2, h3c⟩ := HProp.toChunksAux_spec 3 h3 v.length v (le_refl _) hdvd
  have hts : HProp.toChunks 3 v = HProp.toChunksAux 3 v.length v := by
    rw [HProp.toChunks, if_neg (by omega)]
  have hrows : (HProp.toChunks 3 v).length = N := by
    rw [hts, h1, hv, Nat.mul_div_cancel_left _ h3]
  simp only [applyOp, idOp]
  rw [argsort_range, ← hrows, map_getD_range]
  have hmap : (HProp.toChunks 3 v).map
      (fun r => matVecL [[1, 0, 0], [0, 1, 0], [0, 0, 1]] r) = HProp.toChunks 3 v := by
    conv_rhs => rw [← List.map_id (HProp.toChunks 3 v)]
    apply List.map_congr_left
    intro r hrm
    show matVecL [[1, 0, 0], [0, 1, 0], [0, 0, 1]] r = r
    apply matVecL_idRot
    rw [hts] at hrm
    exact h2 r hrm
  rw [hmap, hts, h3c]

/-- The unique-row selection on a single transform picks index 0. -/
theorem uniqueFirstIdx_single (d : List ℚ) : uniqueFirstIdx [d] = [0] := by
  rw [uniqueFirstIdx]
  rfl

/-- `_get_equivalent_vector` under the identity-only operation set returns
the field itself as its single independent copy, with index subset `[0]`. -/
theorem get_equivalent_vector_idOp (N : ℕ) (d : List ℚ) (hd : d.length = 3 * N) :
    get_equivalent_vector [idOp N] d none = ([d], [0]) := by
  simp only [get_equivalent_vector, List.map_cons, List.map_nil]
  rw [applyOp_idOp N d hd, uniqueFirstIdx_single]
  rfl

end FD

namespace FD

/-- The coverage array after `k` identity-symmetry probes on a `T`-entry
structure: `dx` on the first `k` entries, zeros after. -/
def coverK (T k : ℕ) (dx : ℚ) : List ℚ :=
  List.replicate k dx ++ List.replicate (T - k) 0

/-- `findIdx` skips a block whose entries all fail the predicate. -/
theorem findIdx_replicate_append (p : ℚ → Bool) (a : ℚ) (hpa : p a = false) :
    ∀ (k : ℕ) (l : List ℚ),
      List.findIdx p (List.replicate k a ++ l) = k + List.findIdx p l := by
  intro k
  induction k with
  | zero => intro l; simp
  | succ m ih =>
      intro l
      rw [List.replicate_succ, List.cons_append, List.findIdx_cons, hpa]
      show (List.findIdx p (List.replicate m a ++ l)) + 1 = m + 1 + List.findIdx p l
      rw [ih l]
      omega

/-- A strictly-positive `dx` beyond the tolerance is never close to zero. -/
theorem isCloseZero_dx_false (dx : ℚ) (h : 1 / 100000000 < dx) :
    isCloseZero dx = false := by
  rw [isCloseZero, decide_eq_false_iff_not]
  intro hc
  rw [abs_of_pos (lt_trans (by norm_num) h)] at hc
  linarith

/-- Zero is close to zero. -/
theorem isCloseZero_zero : isCloseZero 0 = true := by
  rw [isCloseZero]
  simp

/-- The first not-yet-covered entry of `coverK T k dx` is entry `k`. -/
theorem findIdx_coverK (T k : ℕ) (dx : ℚ) (hk : k < T) (hdx : 1 / 100000000 < dx) :
    List.findIdx isCloseZero (coverK T k dx) = k := by
  rw [coverK, findIdx_replicate_append isCloseZero dx (isCloseZero_dx_false dx hdx)]
  match hTk : T - k, (by omega : 0 < T - k) with
  | m + 1, _ =>
      rw [List.replicate_succ, List.findIdx_cons, isCloseZero_zero]
      rfl

/-- A partially covered array still has an entry close to zero. -/
theorem any_coverK (T k : ℕ) (dx : ℚ) (hk : k < T) :
    (coverK T k dx).any isCloseZero = true := by
  rw [List.any_eq_true]
  refine ⟨0, ?_, isCloseZero_zero⟩
  apply List.mem_append_right
  rw [List.mem_replicate]
  exact ⟨by omega, rfl⟩

/-- Setting just past a block rewrites the head of the tail. -/
theorem set_replicate_append (a : ℚ) (x : ℚ) :
    ∀ (k : ℕ) (l : List ℚ),
      (List.replicate k a ++ l).set k x = List.replicate k a ++ l.set 0 x := by
  intro k
  induction k with
  | zero => intro l; rfl
  | succ m ih =>
      intro l
      rw [List.replicate_succ, List.cons_append, List.cons_append]
      show a :: (List.replicate m a ++ l).set m x = _
      rw [ih l]

/-- The probe field built on `coverK` is the `k`-th standard basis field. -/
theorem nextDisplacement_coverK (T k : ℕ) (dx : ℚ) (hk : k < T)
    (hdx : 1 / 100000000 < dx) :
    nextDisplacement (coverK T k dx) dx = stdBasis T k dx := by
  rw [nextDisplacement, findIdx_coverK T k dx hk hdx, stdBasis, coverK]
  congr 1
  rw [List.map_append, List.map_replicate, List.map_replicate, ← List.replicate_add]
  congr 1
  omega

/-- `stdBasis` as an explicit replicate-cons-replicate decomposition. -/
theorem stdBasis_decomp (T k : ℕ) (dx : ℚ) (hk : k < T) :
    stdBasis T k dx = List.replicate k 0 ++ dx :: List.replicate (T - k - 1) 0 := by
  obtain ⟨m, hm⟩ : ∃ m, T - k = m + 1 := ⟨T - k - 1, by omega⟩
  have hsplit : List.replicate T (0:ℚ) = List.replicate k 0 ++ List.replicate (m + 1) 0 := by
    rw [← List.replicate_add]
    congr 1
    omega
  rw [stdBasis, hsplit, set_replicate_append, List.replicate_succ]
  have hm2 : T - k - 1 = m := by omega
  rw [hm2]
  rfl

/-- The length of a standard basis field. -/
theorem stdBasis_length (T k : ℕ) (dx : ℚ) : (stdBasis T k dx).length = T := by
  rw [stdBasis, List.length_set, List.length_replicate]

/-- Zipping equal-length replicates pointwise. -/
theorem zipWith_replicate_same {α : Type} (f : α → α → α) (a b : α) :
    ∀ n, List.zipWith f (List.replicate n a) (List.replicate n b)
      = List.replicate n (f a b) := by
  intro n
  induction n with
  | zero => rfl
  | succ m ih =>
      rw [List.replicate_succ, List.replicate_succ, List.zipWith_cons_cons, ih]
      rfl

/-- Adding the `k`-th probe's absolute copy onto the coverage extends the
covered block by one entry. -/
theorem coverK_step (T k : ℕ) (dx : ℚ) (hk : k < T) (hdx : 0 < dx) :
    List.zipWith (· + ·) (coverK T k dx) ((stdBasis T k dx).map (|·|))
      = coverK T (k + 1) dx := by
  obtain ⟨m, hm⟩ : ∃ m, T - k = m + 1 := ⟨T - k - 1, by omega⟩
  have hm2 : T - k - 1 = m := by omega
  have hm3 : T - (k + 1) = m := by omega
  rw [stdBasis_decomp T k dx hk, coverK, hm2, hm, coverK, hm3]
  rw [List.map_append, List.map_replicate, List.map_cons, List.map_replicate]
  rw [List.zipWith_append _ _ _ _ _ (by rw [List.length_replicate, List.length_replicate])]
  rw [zipWith_replicate_same, List.replicate_succ, List.zipWith_cons_cons,
    zipWith_replicate_same]
  simp only [abs_of_pos hdx, abs_zero, add_zero, zero_add]
  rw [List.append_cons, ← List.replicate_succ']

/-- `np.absolute` of a single row summed over the probe axis. -/
theorem sumAbsRows_single (d : List ℚ) : sumAbsRows [d] = d.map (|·|) := rfl

end FD

namespace FD

/-- The builder state after `k` probes of an identity-symmetry structure:
`k` covered entries, the first `k` standard-basis probes (raw and
independent coincide), and index subset `[0]` recorded per probe. -/
def mkGenSt (N k : ℕ) (dx : ℚ) : GenState :=
  { coverage := coverK (3 * N) k dx,
    displacements := (List.range k).map (fun i => stdBasis (3 * N) i dx),
    inequivalent_displacements := (List.range k).map (fun i => stdBasis (3 * N) i dx),
    inequivalent_ids := List.replicate k [0] }

/-- Invariant of `_generate_displacements` under the identity-only
operation set: each loop pass advances the probe count by one until all
`3N` atom-directions are covered. -/
theorem genLoop_idOp (N : ℕ) (dx : ℚ) (hdx : 1 / 100000000 < dx) :
    ∀ (fuel k : ℕ), k + fuel = 3 * N →
      genLoop [idOp N] dx fuel (mkGenSt N k dx) = mkGenSt N (3 * N) dx := by
  intro fuel
  induction fuel with
  | zero =>
      intro k hk
      rw [genLoop, show k = 3 * N from by omega]
  | succ m ih =>
      intro k hk
      have hkT : k < 3 * N := by omega
      have hdx0 : 0 < dx := lt_trans (by norm_num) hdx
      simp only [genLoop, mkGenSt]
      rw [if_pos (any_coverK (3 * N) k dx hkT)]
      rw [nextDisplacement_coverK (3 * N) k dx hkT hdx]
      rw [get_equivalent_vector_idOp N _ (stdBasis_length (3 * N) k dx)]
      have hstep : ∀ st2 : GenState, st2 = mkGenSt N (k + 1) dx →
          genLoop [idOp N] dx m st2 = mkGenSt N (3 * N) dx := by
        intro st2 h2
        rw [h2]
        exact ih (k + 1) (by omega)
      apply hstep
      rw [mkGenSt, GenState.mk.injEq]
      refine ⟨?_, ?_, ?_, ?_⟩
      · show List.zipWith (· + ·) (coverK (3 * N) k dx)
            (sumAbsRows [stdBasis (3 * N) k dx]) = coverK (3 * N) (k + 1) dx
        rw [sumAbsRows_single]
        exact coverK_step (3 * N) k dx hkT hdx0
      · show (List.range k).map (fun i => stdBasis (3 * N) i dx)
              ++ [stdBasis (3 * N) k dx]
            = (List.range (k + 1)).map (fun i => stdBasis (3 * N) i dx)
        rw [List.range_succ, List.map_append, List.map_singleton]
      · show (List.range k).map (fun i => stdBasis (3 * N) i dx)
              ++ [stdBasis (3 * N) k dx]
            = (List.range (k + 1)).map (fun i => stdBasis (3 * N) i dx)
        rw [List.range_succ, List.map_append, List.map_singleton]
      · show List.replicate k ([0] : List ℕ) ++ [[0]]
            = List.replicate (k + 1) [0]
        rw [List.replicate_succ']

/-- A standard-basis probe has exactly one nonzero entry, and it holds
`dx`. -/
theorem filter_stdBasis (T k : ℕ) (dx : ℚ) (hk : k < T) (hdx : dx ≠ 0) :
    (stdBasis T k dx).filter (fun x => decide (x ≠ 0)) = [dx] := by
  have hrep : ∀ n, (List.replicate n (0:ℚ)).filter (fun x => decide (x ≠ 0)) = [] := by
    intro n
    induction n with
    | zero => rfl
    | succ m ih =>
        rw [List.replicate_succ, List.filter_cons]
        simp [ih]
  rw [stdBasis_decomp T k dx hk, List.filter_append, hrep, List.filter_cons]
  simp [hdx, hrep]

end FD

/-- Claim C8 (confirmed).  For a structure whose symmetry-operation set
contains only the identity, `generate_displacements` on `N` atoms produces
exactly `3N` probes (and the same `3N` independent probes), the `k`-th probe
being `dx` at flattened entry `k` — i.e. one probe per atom-direction in
row-major atom order then x/y/z — and every probe has exactly one nonzero
entry, of magnitude `dx` (stated for positive `dx` above the `np.isclose`
coverage tolerance `1e-8`; smaller steps would never register as
coverage). -/
theorem C8_identity_probes (N : ℕ) (dx : ℚ) (hdx : 1 / 100000000 < dx) :
    (FD.generate_displacements [FD.idOp N] N dx).displacements
        = (List.range (3 * N)).map (fun k => FD.stdBasis (3 * N) k dx)
  ∧ (FD.generate_displacements [FD.idOp N] N dx).displacements.length = 3 * N
  ∧ (FD.generate_displacements [FD.idOp N] N dx).inequivalent_displacements
        = (List.range (3 * N)).map (fun k => FD.stdBasis (3 * N) k dx)
  ∧ (∀ p ∈ (FD.generate_displacements [FD.idOp N] N dx).displacements,
      p.filter (fun x => decide (x ≠ 0)) = [dx]) := by
  have hfin : FD.generate_displacements [FD.idOp N] N dx = FD.mkGenSt N (3 * N) dx := by
    have h0 : FD.generate_displacements [FD.idOp N] N dx
        = FD.genLoop [FD.idOp N] dx (3 * N) (FD.mkGenSt N 0 dx) := rfl
    rw [h0]
    exact FD.genLoop_idOp N dx hdx (3 * N) 0 (by omega)
  rw [hfin]
  refine ⟨rfl, ?_, rfl, ?_⟩
  · show ((List.range (3 * N)).map (fun i => FD.stdBasis (3 * N) i dx)).length = 3 * N
    rw [List.length_map, List.length_range]
  · intro p hp
    have hp2 : p ∈ (List.range (3 * N)).map (fun i => FD.stdBasis (3 * N) i dx) := hp
    obtain ⟨k, hk, rfl⟩ := List.mem_map.mp hp2
    exact FD.filter_stdBasis (3 * N) k dx (List.mem_range.mp hk)
      (by positivity)

/-- Witness for C8: the theorem at one atom and the default probe step
`dx = 0.01`. -/
theorem C8_identity_probes_witness :
    (1 / 100000000 : ℚ) < 1/100
  ∧ ((FD.generate_displacements [FD.idOp 1] 1 (1/100)).displacements
        = (List.range (3 * 1)).map (fun k => FD.stdBasis (3 * 1) k (1/100))
    ∧ (FD.generate_displacements [FD.idOp 1] 1 (1/100)).displacements.length = 3 * 1
    ∧ (FD.generate_displacements [FD.idOp 1] 1 (1/100)).inequivalent_displacements
        = (List.range (3 * 1)).map (fun k => FD.stdBasis (3 * 1) k (1/100))
    ∧ (∀ p ∈ (FD.generate_displacements [FD.idOp 1] 1 (1/100)).displacements,
        p.filter (fun x => decide (x ≠ 0)) = [1/100])) :=
  ⟨by norm_num, C8_identity_probes 1 (1/100) (by norm_num)⟩

namespace Driver

/-- The external collaborators of `run_qn`, for an `N`-atom system with
`3N` flattened coordinates: the physics job (`run` advances one force
evaluation on the opaque job state `J`, `forces` reads the latest per-atom
force field), the structure mutation (`applyDx` adds a displacement to the
positions and re-wraps them into the cell), and the linear-algebra and
symmetry services the engine consumes. -/
structure Collaborators (J : Type) (N : ℕ) where
  run : J → J
  forces : J → Fin (3 * N) → ℚ
  applyDx : J → (Fin (3 * N) → ℚ) → J
  eig : Matrix (Fin (3 * N)) (Fin (3 * N)) ℚ
          → (Fin (3 * N) → ℚ) × Matrix (Fin (3 * N)) (Fin (3 * N)) ℚ
  symmetrizeVectors : (Fin (3 * N) → ℚ) → Fin (3 * N) → ℚ

/-- `np.linalg.norm(f, axis=-1).max() < tol` on the flattened field:
every atom's force 3-vector has norm below `tol`, compared through squared
norms (equivalent for the positive tolerances the driver is run with,
since both sides of each comparison are nonnegative). -/
def maxAtomNormLt (N : ℕ) (f : Fin (3 * N) → ℚ) (tol : ℚ) : Bool :=
  let g : ℕ → ℚ := fun k => if h : k < 3 * N then f ⟨k, h⟩ else 0
  (List.range N).all fun a =>
    decide ((g (3 * a)) ^ 2 + (g (3 * a + 1)) ^ 2 + (g (3 * a + 2)) ^ 2 < tol ^ 2)

/-- The iteration of `run_qn`: check force convergence, ask the engine for
a step, stop with the stall warning when the step is below the minimum
displacement, otherwise move the structure, re-evaluate and continue. -/
def runLoop {J : Type} {N : ℕ} (C : Collaborators J N) (mode : String)
    (ftol mind : ℚ) : ℕ → QN.Engine (3 * N) → J → Except String (J × QN.Engine (3 * N))
  | 0, qn, job => .ok (job, qn)
  | steps + 1, qn, job =>
      let f := C.forces job
      if maxAtomNormLt N f ftol then .ok (job, qn)
      else
        match QN.get_dx C.eig C.symmetrizeVectors qn (fun i => -(f i)) (1/10000) mode with
        | .error e => .error e
        | .ok (dx, qn1) =>
            if maxAtomNormLt N dx mind then .ok (job, qn1)
            else runLoop C mode ftol mind steps qn1 (C.run (C.applyDx job dx))

/-- `run_qn`.  Builds the engine — passing every configuration knob except
`symmetrize`, which the source never forwards, so the engine always gets
its default `symmetrize=True` — runs the job once, and iterates
`runLoop` for at most `ionic_steps` rounds.  `ionic_energy_tolerance` is
accepted and never read, as in the source. -/
def run_qn {J : Type} {N : ℕ} (C : Collaborators J N) (job : J) (mode : String)
    (ionic_steps : ℕ) (ionic_force_tolerance _ionic_energy_tolerance starting_h : ℚ)
    (diffusion_id : Option ℕ) (use_eigenvalues : Bool)
    (diffusion_direction : Option (Fin (3 * N) → ℚ)) (regularization : ℚ)
    (_symmetrize : Bool) (min_displacement : ℚ) :
    Except String (J × QN.Engine (3 * N)) := do
  let qn ← QN.mkEngine (3 * N) starting_h diffusion_id use_eigenvalues
    diffusion_direction regularization true
  let job0 := C.run job
  runLoop C mode ionic_force_tolerance min_displacement ionic_steps qn job0

end Driver

/-- Claim C10 (confirmed).  `run_qn` accepts a `symmetrize` parameter but
never forwards it when constructing the engine (which therefore always uses
its default `symmetrize=True`): for every job, collaborator set and fixed
remaining configuration, the runs with `symmetrize=True` and
`symmetrize=False` perform identical state updates and return identical
results. -/
theorem C10_run_qn_ignores_symmetrize {J : Type} {N : ℕ}
    (C : Driver.Collaborators J N) (job : J) (mode : String) (ionic_steps : ℕ)
    (ftol etol starting_h : ℚ) (diffusion_id : Option ℕ) (use_eigenvalues : Bool)
    (diffusion_direction : Option (Fin (3 * N) → ℚ)) (regularization : ℚ)
    (min_displacement : ℚ) :
    Driver.run_qn C job mode ionic_steps ftol etol starting_h diffusion_id
        use_eigenvalues diffusion_direction regularization true min_displacement
      = Driver.run_qn C job mode ionic_steps ftol etol starting_h diffusion_id
        use_eigenvalues diffusion_direction regularization false min_displacement := rfl
